import Mathlib

/-!
Shallow embedding of the MQTT topic validation/sanitization core of
`telegraf_conf_generator.py` (class `TelegrafConfigGenerator`), together
with the per-record topic-selection loop of `generate_telegraf_config`.

Python strings are modelled as `List Char` (a Python `str` is a sequence
of Unicode code points).  UTF-8 byte length is the sum of the per-code-point
UTF-8 encoded sizes.  `str.split('/')` is modelled by `splitOn`,
`str.replace(c, '_')` for a single character `c` by `replaceChar`,
`str.startswith(p)` by `startsWith`.
-/

set_option autoImplicit false

namespace TelegrafConf

/-- `MQTT_TOPIC_EXCLUSION_CHARS` from the source: characters considered
illegal in topic names. -/
def MQTT_TOPIC_EXCLUSION_CHARS : List Char := ['+', '#', '*', '>', '$']

/-- UTF-8 encoded byte size of one code point, as in `str.encode('utf-8')`. -/
def charUtf8Size (c : Char) : Nat :=
  if c.toNat < 0x80 then 1
  else if c.toNat < 0x800 then 2
  else if c.toNat < 0x10000 then 3
  else 4

/-- `len(s.encode('utf-8'))`: the UTF-8 byte length of a string. -/
def utf8Len (s : List Char) : Nat := (s.map charUtf8Size).sum

/-- `s.startswith(p)`: `p` listed first, the string second. -/
def startsWith : List Char → List Char → Bool
  | [], _ => true
  | _ :: _, [] => false
  | p :: ps, c :: cs => p == c && startsWith ps cs

/-- `s.split(d)` for a one-character separator `d`: the empty string yields
one (empty) segment; consecutive separators yield empty segments. -/
def splitOn (d : Char) : List Char → List (List Char)
  | [] => [[]]
  | c :: cs =>
    if c == d then [] :: splitOn d cs
    else
      match splitOn d cs with
      | [] => [[c]]
      | seg :: rest => (c :: seg) :: rest

/-- `s.replace(old, new)` for single characters. -/
def replaceChar (old new : Char) (s : List Char) : List Char :=
  s.map (fun c => if c == old then new else c)

def dollarStr : List Char := String.toList "$"
def sysStr : List Char := String.toList "$SYS/"
def shareStr : List Char := String.toList "$share/"
def noexportStr : List Char := String.toList "$noexport/"

/-- `TelegrafConfigGenerator.validate_mqtt_topic` (lines 50-75): the four
checks in source order — exclusion characters anywhere, leading `$` without
a reserved prefix, UTF-8 byte length over 250, more than 128 levels. -/
def validate_mqtt_topic (topic_name : List Char) : Bool :=
  if MQTT_TOPIC_EXCLUSION_CHARS.any (fun char => topic_name.contains char) then false
  else if startsWith dollarStr topic_name &&
      !(startsWith sysStr topic_name || startsWith shareStr topic_name ||
        startsWith noexportStr topic_name) then false
  else if utf8Len topic_name > 250 then false
  else if (splitOn '/' topic_name).length > 128 then false
  else true

/-- `TelegrafConfigGenerator.sanitize_mqtt_topic` (lines 77-94): replace
each exclusion character by `_` (in list order), then rewrite a remaining
illegal leading `$` (`"_" + s[1:]`). -/
def sanitize_mqtt_topic (topic_name : List Char) : List Char :=
  let sanitized_name :=
    MQTT_TOPIC_EXCLUSION_CHARS.foldl (fun acc char => replaceChar char '_' acc) topic_name
  if startsWith dollarStr sanitized_name &&
      !(startsWith sysStr sanitized_name || startsWith shareStr sanitized_name ||
        startsWith noexportStr sanitized_name)
  then '_' :: sanitized_name.drop 1
  else sanitized_name

/-- Single-pass replacement of every exclusion character by `_`
(the candidate simple description of the sanitizer, to be compared
against `sanitize_mqtt_topic`). -/
def sanitizeSimple (s : List Char) : List Char :=
  s.map (fun c => if c ∈ MQTT_TOPIC_EXCLUSION_CHARS then '_' else c)

/-- The candidate topic built per CSV record in `generate_telegraf_config`
(line 125): `f"telegraf/opcua/{identifier}"`. -/
def topicCandidate (identifier : List Char) : List Char :=
  String.toList "telegraf/opcua/" ++ identifier

/-- The per-record validate/sanitize/count loop of
`generate_telegraf_config` (lines 124-141), abstracted over the list of
extracted identifiers: returns the stored `mqtt_topic` values in order and
the final `_topics_sanitized` counter. -/
def processNodes : List (List Char) → Nat → List (List Char) × Nat
  | [], count => ([], count)
  | ident :: rest, count =>
    let mqtt := topicCandidate ident
    if validate_mqtt_topic mqtt then
      let r := processNodes rest count
      (mqtt :: r.1, r.2)
    else
      let r := processNodes rest (count + 1)
      (sanitize_mqtt_topic mqtt :: r.1, r.2)

/-! ### Basic lemmas about the string operations -/

lemma startsWith_nil_left (s : List Char) : startsWith [] s = true := rfl

lemma startsWith_cons_cons (p c : Char) (ps cs : List Char) :
    startsWith (p :: ps) (c :: cs) = ((p == c) && startsWith ps cs) := rfl

lemma dollarStr_eq : dollarStr = ['$'] := rfl

lemma startsWith_dollar_cons (c : Char) (cs : List Char) :
    startsWith dollarStr (c :: cs) = ('$' == c) := by
  rw [dollarStr_eq, startsWith_cons_cons, startsWith_nil_left, Bool.and_true]

lemma splitOn_ne_nil (d : Char) (s : List Char) : splitOn d s ≠ [] := by
  cases s with
  | nil => simp [splitOn]
  | cons c cs =>
    by_cases h : c == d
    · simp [splitOn, h]
    · cases hh : splitOn d cs with
      | nil => simp [splitOn, h, hh]
      | cons x xs => simp [splitOn, h, hh]

lemma utf8Len_cons (c : Char) (s : List Char) :
    utf8Len (c :: s) = charUtf8Size c + utf8Len s := by
  simp [utf8Len]

/-- Replacing each character of `cs` by `_` in turn is a single map:
a character is rewritten to `_` exactly when it lies in `cs`. -/
lemma foldl_replaceChar (cs : List Char) (s : List Char) :
    cs.foldl (fun acc char => replaceChar char '_' acc) s
      = s.map (fun a => if a ∈ cs then '_' else a) := by
  induction cs generalizing s with
  | nil => simp [replaceChar]
  | cons c cs ih =>
    rw [List.foldl_cons, ih, replaceChar, List.map_map]
    have hfun : ((fun a => if a ∈ cs then '_' else a) ∘ fun a => if a == c then '_' else a)
        = fun a => if a ∈ c :: cs then '_' else a := by
      funext a
      by_cases hac : a = c
      · subst hac
        simp [List.mem_cons]
      · simp [Function.comp, beq_eq_false_iff_ne.mpr hac, List.mem_cons, hac]
    rw [hfun]

/-- The character-replacement pass of the sanitizer is `sanitizeSimple`. -/
lemma sanitize_replace_pass (s : List Char) :
    MQTT_TOPIC_EXCLUSION_CHARS.foldl (fun acc char => replaceChar char '_' acc) s
      = sanitizeSimple s :=
  foldl_replaceChar MQTT_TOPIC_EXCLUSION_CHARS s

/-- Every character produced by `sanitizeSimple` lies outside the exclusion set. -/
lemma mem_sanitizeSimple_not_excl {b : Char} {s : List Char}
    (hb : b ∈ sanitizeSimple s) : b ∉ MQTT_TOPIC_EXCLUSION_CHARS := by
  obtain ⟨a, _, rfl⟩ := List.mem_map.mp hb
  by_cases h : a ∈ MQTT_TOPIC_EXCLUSION_CHARS
  · simp only [h, if_pos]
    decide
  · simp [h]

lemma excl_not_mem_sanitizeSimple (s : List Char) :
    ∀ c ∈ MQTT_TOPIC_EXCLUSION_CHARS, c ∉ sanitizeSimple s :=
  fun _ hc hcs => mem_sanitizeSimple_not_excl hcs hc

/-- After character replacement, no string starts with `$`. -/
lemma startsWith_dollar_sanitizeSimple (s : List Char) :
    startsWith dollarStr (sanitizeSimple s) = false := by
  cases s with
  | nil => rfl
  | cons a as =>
    show startsWith dollarStr ((if a ∈ MQTT_TOPIC_EXCLUSION_CHARS then '_' else a)
        :: sanitizeSimple as) = false
    rw [startsWith_dollar_cons]
    by_cases h : a ∈ MQTT_TOPIC_EXCLUSION_CHARS
    · simp [h]
    · have ha : a ≠ '$' := fun hh => h (hh ▸ (by decide : '$' ∈ MQTT_TOPIC_EXCLUSION_CHARS))
      rw [if_neg h]
      exact beq_eq_false_iff_ne.mpr (Ne.symm ha)

/-- The leading-dollar rewrite branch of the sanitizer never fires:
`sanitize_mqtt_topic` is exactly the character-replacement pass. -/
lemma sanitize_eq_simple (s : List Char) :
    sanitize_mqtt_topic s = sanitizeSimple s := by
  simp [sanitize_mqtt_topic, sanitize_replace_pass, startsWith_dollar_sanitizeSimple]

/-- Replacing an exclusion character by `_` does not change its UTF-8 size
(all five characters and `_` are one-byte ASCII). -/
lemma charUtf8Size_sanitizeSimple (a : Char) :
    charUtf8Size (if a ∈ MQTT_TOPIC_EXCLUSION_CHARS then '_' else a) = charUtf8Size a := by
  by_cases h : a ∈ MQTT_TOPIC_EXCLUSION_CHARS
  · rw [if_pos h]
    have : a = '+' ∨ a = '#' ∨ a = '*' ∨ a = '>' ∨ a = '$' := by
      simpa [MQTT_TOPIC_EXCLUSION_CHARS] using h
    rcases this with rfl | rfl | rfl | rfl | rfl <;> decide
  · rw [if_neg h]

/-- Sanitization preserves the UTF-8 byte length. -/
lemma utf8Len_sanitizeSimple (s : List Char) :
    utf8Len (sanitizeSimple s) = utf8Len s := by
  induction s with
  | nil => rfl
  | cons a as ih =>
    show utf8Len ((if a ∈ MQTT_TOPIC_EXCLUSION_CHARS then '_' else a) :: sanitizeSimple as)
        = utf8Len (a :: as)
    rw [utf8Len_cons, utf8Len_cons, charUtf8Size_sanitizeSimple, ih]

/-- A character-wise map that neither creates nor destroys occurrences of the
separator leaves the number of `split` segments unchanged. -/
lemma splitOn_length_map (d : Char) (f : Char → Char) (hf : ∀ a, f a = d ↔ a = d)
    (s : List Char) : (splitOn d (s.map f)).length = (splitOn d s).length := by
  induction s with
  | nil => rfl
  | cons a as ih =>
    rw [List.map_cons]
    by_cases h : a = d
    · subst h
      have hfa : f a = a := (hf a).mpr rfl
      simp [splitOn, hfa, ih]
    · have hfa : ¬ f a = d := fun hh => h ((hf a).mp hh)
      obtain ⟨seg, rest, hsr⟩ := List.exists_cons_of_ne_nil (splitOn_ne_nil d (as.map f))
      obtain ⟨seg2, rest2, hsr2⟩ := List.exists_cons_of_ne_nil (splitOn_ne_nil d as)
      rw [hsr, hsr2] at ih
      simp only [List.length_cons] at ih
      simp [splitOn, beq_eq_false_iff_ne.mpr h, beq_eq_false_iff_ne.mpr hfa, hsr, hsr2, ih]

/-- Sanitization neither creates nor destroys `/` characters. -/
lemma sanitizeSimple_slash (a : Char) :
    (if a ∈ MQTT_TOPIC_EXCLUSION_CHARS then '_' else a) = '/' ↔ a = '/' := by
  by_cases h : a ∈ MQTT_TOPIC_EXCLUSION_CHARS
  · rw [if_pos h]
    have : a = '+' ∨ a = '#' ∨ a = '*' ∨ a = '>' ∨ a = '$' := by
      simpa [MQTT_TOPIC_EXCLUSION_CHARS] using h
    constructor
    · intro hh
      exact absurd hh (by decide)
    · intro hh
      rcases this with rfl | rfl | rfl | rfl | rfl <;> exact absurd hh (by decide)
  · rw [if_neg h]

/-- Sanitization preserves the number of `/`-separated segments. -/
lemma splitOn_length_sanitizeSimple (s : List Char) :
    (splitOn '/' (sanitizeSimple s)).length = (splitOn '/' s).length :=
  splitOn_length_map '/' _ sanitizeSimple_slash s

/-- The exclusion-character scan of the validator fails on sanitized output. -/
lemma any_contains_sanitizeSimple (s : List Char) :
    MQTT_TOPIC_EXCLUSION_CHARS.any (fun char => (sanitizeSimple s).contains char) = false := by
  rw [List.any_eq_false]
  intro c hc
  simp only [Bool.not_eq_true]
  rw [← Bool.not_eq_true, List.elem_iff]
  exact excl_not_mem_sanitizeSimple s c hc

/-- The validator succeeds exactly when all four checks pass: no exclusion
character anywhere, no illegal leading `$`, at most 250 UTF-8 bytes,
at most 128 `/`-separated levels. -/
lemma validate_eq_decision (s : List Char) :
    validate_mqtt_topic s = true ↔
      ((∀ c ∈ MQTT_TOPIC_EXCLUSION_CHARS, c ∉ s) ∧
       (startsWith dollarStr s = true →
         (startsWith sysStr s || startsWith shareStr s || startsWith noexportStr s) = true) ∧
       utf8Len s ≤ 250 ∧
       (splitOn '/' s).length ≤ 128) := by
  unfold validate_mqtt_topic
  split_ifs with h1 h2 h3 h4
  · refine iff_of_false (by simp) ?_
    rintro ⟨hc, -, -, -⟩
    rw [List.any_eq_true] at h1
    obtain ⟨c, hcmem, hcont⟩ := h1
    exact hc c hcmem (List.elem_iff.mp hcont)
  · refine iff_of_false (by simp) ?_
    rintro ⟨-, hd, -, -⟩
    rw [Bool.and_eq_true] at h2
    obtain ⟨hdol, hnot⟩ := h2
    have hsys := hd hdol
    rw [hsys] at hnot
    exact absurd hnot (by decide)
  · refine iff_of_false (by simp) ?_
    rintro ⟨-, -, hl, -⟩
    omega
  · refine iff_of_false (by simp) ?_
    rintro ⟨-, -, -, hdep⟩
    omega
  · refine iff_of_true rfl ⟨?_, ?_, by omega, by omega⟩
    · have h1' : MQTT_TOPIC_EXCLUSION_CHARS.any (fun char => s.contains char) = false := by
        cases hx : MQTT_TOPIC_EXCLUSION_CHARS.any (fun char => s.contains char) with
        | true => exact absurd hx h1
        | false => rfl
      rw [List.any_eq_false] at h1'
      intro c hc hmem
      exact h1' c hc (List.elem_iff.mpr hmem)
    · intro hd
      cases hb : (startsWith sysStr s || startsWith shareStr s || startsWith noexportStr s) with
      | true => rfl
      | false =>
        refine absurd ?_ h2
        rw [Bool.and_eq_true]
        exact ⟨hd, by rw [hb]; rfl⟩

/-- A string free of exclusion characters is left unchanged by the
replacement pass. -/
lemma sanitizeSimple_eq_self {s : List Char}
    (h : ∀ c ∈ MQTT_TOPIC_EXCLUSION_CHARS, c ∉ s) : sanitizeSimple s = s := by
  induction s with
  | nil => rfl
  | cons a as ih =>
    have ha : a ∉ MQTT_TOPIC_EXCLUSION_CHARS :=
      fun hmem => (h a hmem) (List.mem_cons_self a as)
    have ht : ∀ c ∈ MQTT_TOPIC_EXCLUSION_CHARS, c ∉ as :=
      fun c hc hcs => (h c hc) (List.mem_cons_of_mem a hcs)
    show (if a ∈ MQTT_TOPIC_EXCLUSION_CHARS then '_' else a) :: sanitizeSimple as = a :: as
    rw [if_neg ha, ih ht]

/-- The replacement pass is idempotent: its output has no exclusion
characters left to rewrite. -/
lemma sanitizeSimple_idem (s : List Char) :
    sanitizeSimple (sanitizeSimple s) = sanitizeSimple s :=
  sanitizeSimple_eq_self (excl_not_mem_sanitizeSimple s)

example : validate_mqtt_topic (String.toList "telegraf/opcua/Temp#1") = false := by decide
example : sanitize_mqtt_topic (String.toList "telegraf/opcua/Temp#1")
    = String.toList "telegraf/opcua/Temp_1" := by decide
example : validate_mqtt_topic (String.toList "$SYS/broker/load") = false := by decide
example : sanitize_mqtt_topic (String.toList "$SYS/foo") = String.toList "_SYS/foo" := by decide
example : sanitize_mqtt_topic (String.toList "$custom/topic")
    = String.toList "_custom/topic" := by decide

/-- One step of the per-record loop of `generate_telegraf_config`. -/
lemma processNodes_cons (ident : List Char) (rest : List (List Char)) (count : Nat) :
    processNodes (ident :: rest) count
      = if validate_mqtt_topic (topicCandidate ident) = true then
          (topicCandidate ident :: (processNodes rest count).1,
            (processNodes rest count).2)
        else
          (sanitize_mqtt_topic (topicCandidate ident) :: (processNodes rest (count + 1)).1,
            (processNodes rest (count + 1)).2) := by
  show (if validate_mqtt_topic (topicCandidate ident) then _ else _) = _
  by_cases h : validate_mqtt_topic (topicCandidate ident) = true
  · rw [if_pos h]
  · rw [if_neg h]

/-! ### The claims -/

/-- Claim C1: sanitization repairs exactly the character/prefix violations —
`validate (sanitize s)` is `true` precisely when `s` is within the 250-byte
and 128-level limits (which sanitization does not change). -/
theorem validate_sanitize_iff_limits (s : List Char) :
    validate_mqtt_topic (sanitize_mqtt_topic s) = true ↔
      (utf8Len s ≤ 250 ∧ (splitOn '/' s).length ≤ 128) := by
  rw [sanitize_eq_simple, validate_eq_decision]
  constructor
  · rintro ⟨-, -, hl, hd⟩
    rw [utf8Len_sanitizeSimple] at hl
    rw [splitOn_length_sanitizeSimple] at hd
    exact ⟨hl, hd⟩
  · rintro ⟨hl, hd⟩
    refine ⟨excl_not_mem_sanitizeSimple s, ?_, ?_, ?_⟩
    · intro hdol
      rw [startsWith_dollar_sanitizeSimple] at hdol
      exact absurd hdol (by decide)
    · rw [utf8Len_sanitizeSimple]
      exact hl
    · rw [splitOn_length_sanitizeSimple]
      exact hd

/-- Witness for C1 at the concrete input `"telegraf/opcua/Temp#1"`. -/
theorem validate_sanitize_iff_limits_witness :
    validate_mqtt_topic (sanitize_mqtt_topic (String.toList "telegraf/opcua/Temp#1")) = true :=
  (validate_sanitize_iff_limits (String.toList "telegraf/opcua/Temp#1")).mpr (by decide)

/-- Claim C2 is false of the code: the character-replacement pass rewrites
the `$` of a reserved prefix as well, so `sanitize("$SYS/foo")` is
`"_SYS/foo"`, not `"$SYS/foo"`. -/
theorem sanitize_mangles_reserved_eval :
    sanitize_mqtt_topic (String.toList "$SYS/foo") = String.toList "_SYS/foo" ∧
    sanitize_mqtt_topic (String.toList "$SYS/foo") ≠ String.toList "$SYS/foo" := by
  decide

/-- Claim C3 is false of the code: the exclusion-character scan rejects `$`
anywhere in the string, before the reserved-prefix allowance is consulted,
so `validate("$SYS/broker/load")` is `false`. -/
theorem validate_rejects_reserved_eval :
    validate_mqtt_topic (String.toList "$SYS/broker/load") = false := by
  decide

/-- Claim C4: sanitization is idempotent. -/
theorem sanitize_idempotent (s : List Char) :
    sanitize_mqtt_topic (sanitize_mqtt_topic s) = sanitize_mqtt_topic s := by
  rw [sanitize_eq_simple, sanitize_eq_simple, sanitizeSimple_idem]

/-- Claim C5: the validator returns `true` if and only if all four checks
pass — no exclusion character anywhere, no leading `$` without a reserved
prefix, UTF-8 byte length at most 250, and at most 128 `/`-separated
segments. -/
theorem validate_decision_iff (s : List Char) :
    validate_mqtt_topic s = true ↔
      ((∀ c ∈ MQTT_TOPIC_EXCLUSION_CHARS, c ∉ s) ∧
       (startsWith dollarStr s = true →
         (startsWith sysStr s || startsWith shareStr s || startsWith noexportStr s) = true) ∧
       utf8Len s ≤ 250 ∧
       (splitOn '/' s).length ≤ 128) :=
  validate_eq_decision s

/-- Witness for C5 at the concrete input `"telegraf/opcua/Temp"`. -/
theorem validate_decision_iff_witness :
    validate_mqtt_topic (String.toList "telegraf/opcua/Temp") = true :=
  (validate_decision_iff (String.toList "telegraf/opcua/Temp")).mpr (by decide)

/-- Claim C6: sanitization preserves UTF-8 byte length and the number of
`/`-separated segments; in particular a 300-byte topic of legal characters
is returned unchanged and still fails validation. -/
theorem sanitize_preserves_len_depth (s : List Char) :
    utf8Len (sanitize_mqtt_topic s) = utf8Len s ∧
    (splitOn '/' (sanitize_mqtt_topic s)).length = (splitOn '/' s).length ∧
    sanitize_mqtt_topic (List.replicate 300 'a') = List.replicate 300 'a' ∧
    validate_mqtt_topic (List.replicate 300 'a') = false := by
  refine ⟨?_, ?_, ?_, ?_⟩
  · rw [sanitize_eq_simple]
    exact utf8Len_sanitizeSimple s
  · rw [sanitize_eq_simple]
    exact splitOn_length_sanitizeSimple s
  · rw [sanitize_eq_simple]
    refine sanitizeSimple_eq_self ?_
    intro c hc hmem
    rw [List.eq_of_mem_replicate hmem] at hc
    exact absurd hc (by decide)
  · cases hx : validate_mqtt_topic (List.replicate 300 'a') with
    | false => rfl
    | true =>
      obtain ⟨-, -, hl, -⟩ := (validate_eq_decision _).mp hx
      have hsize : charUtf8Size 'a' = 1 := by decide
      have h300 : utf8Len (List.replicate 300 'a') = 300 := by
        rw [utf8Len, List.map_replicate, hsize, List.sum_replicate, smul_eq_mul, mul_one]
      omega

/-- Claim C7: both operations are total over all strings — the validator
always yields a boolean and the sanitizer always yields a string; the
embedding has no error branch. -/
theorem validate_sanitize_total (s : List Char) :
    (validate_mqtt_topic s = true ∨ validate_mqtt_topic s = false) ∧
    ∃ t : List Char, sanitize_mqtt_topic s = t := by
  refine ⟨?_, sanitize_mqtt_topic s, rfl⟩
  cases hx : validate_mqtt_topic s with
  | false => exact Or.inr rfl
  | true => exact Or.inl rfl

/-- Claim C8: each processed record stores the candidate
`telegraf/opcua/<identifier>` when valid and its sanitization otherwise,
and the sanitized-topics counter grows by one exactly on rejected
candidates, hence is monotone and counts the failing candidates. -/
theorem processNodes_topics_and_count (idents : List (List Char)) (count : Nat) :
    (processNodes idents count).1
      = idents.map (fun ident =>
          if validate_mqtt_topic (topicCandidate ident) = true then topicCandidate ident
          else sanitize_mqtt_topic (topicCandidate ident)) ∧
    (processNodes idents count).2
      = count + idents.countP (fun ident => !(validate_mqtt_topic (topicCandidate ident))) ∧
    count ≤ (processNodes idents count).2 := by
  induction idents generalizing count with
  | nil => simp [processNodes]
  | cons ident rest ih =>
    rw [processNodes_cons]
    by_cases h : validate_mqtt_topic (topicCandidate ident) = true
    · obtain ⟨ih1, ih2, ih3⟩ := ih count
      rw [if_pos h]
      refine ⟨?_, ?_, ih3⟩
      · rw [List.map_cons, if_pos h, ih1]
      · rw [List.countP_cons, ih2]
        simp [h]
    · obtain ⟨ih1, ih2, ih3⟩ := ih (count + 1)
      rw [if_neg h]
      have hb : (!(validate_mqtt_topic (topicCandidate ident))) = true := by
        cases hx : validate_mqtt_topic (topicCandidate ident) with
        | false => rfl
        | true => exact absurd hx h
      refine ⟨?_, ?_, ?_⟩
      · rw [List.map_cons, if_neg h, ih1]
      · rw [List.countP_cons, ih2, hb]
        have hone : (if true = true then (1 : Nat) else 0) = 1 := rfl
        rw [hone]
        omega
      · omega

/-- Claim C9: on valid topics the sanitizer is the identity. -/
theorem sanitize_id_on_valid (s : List Char) (h : validate_mqtt_topic s = true) :
    sanitize_mqtt_topic s = s := by
  rw [sanitize_eq_simple]
  exact sanitizeSimple_eq_self ((validate_eq_decision s).mp h).1

/-- Witness for C9 at the concrete valid input `"telegraf/opcua/Pump"`. -/
theorem sanitize_id_on_valid_witness :
    validate_mqtt_topic (String.toList "telegraf/opcua/Pump") = true ∧
    sanitize_mqtt_topic (String.toList "telegraf/opcua/Pump")
      = String.toList "telegraf/opcua/Pump" :=
  ⟨by decide, sanitize_id_on_valid (String.toList "telegraf/opcua/Pump") (by decide)⟩

/-- Claim C10: the sanitizer is exactly the single-pass replacement of the
five exclusion characters by `_`, and its output never starts with `$`,
so the leading-dollar rewrite branch is unreachable. -/
theorem sanitize_refines_simple (s : List Char) :
    sanitize_mqtt_topic s = sanitizeSimple s ∧
    startsWith dollarStr (sanitizeSimple s) = false :=
  ⟨sanitize_eq_simple s, startsWith_dollar_sanitizeSimple s⟩

end TelegrafConf
